import Mathlib

/-!
Shallow embedding of the wd14-tagger core pipeline (src/main.rs) over ℚ-valued
scores. Tag names are modelled as lists of characters, score vectors as
functions from catalog positions to rationals, and every operation that can
panic in the source (an unwrap of an empty-iterator maximum, an out-of-bounds
index, a failed image copy) is modelled as returning none.
-/

namespace WD14

/-- Characters protected from underscore replacement in load_labels
(src/main.rs line 47): the string literal given to chars().all(contains). -/
def kaomojiChars : List Char :=
  ['_', '(', ')', '<', '>', '+', '^', '.', '0', '1', '2', '3', '4', '5', '6', '7', '8', '9']

/-- Name normalization from load_labels (src/main.rs lines 47-51): keep the raw
name when every character is in kaomojiChars, otherwise replace each underscore
with a space. -/
def normalizeName (s : List Char) : List Char :=
  if s.all (fun c => kaomojiChars.contains c) then s
  else s.map (fun c => if c = '_' then ' ' else c)

/-- One parsed row of selected_tags.csv (src/main.rs lines 28-32); the category
code is a small unsigned integer. -/
structure TagRow where
  name : List Char
  category : Nat
deriving DecidableEq

/-- Body of the load_labels loop (src/main.rs lines 45-59) starting at row
index idx: returns (names, ratings, general, character) where the three index
lists record the positions of rows with category code 9, 0 and 4. -/
def load_labels_from : Nat → List TagRow → List (List Char) × List Nat × List Nat × List Nat
  | _, [] => ([], [], [], [])
  | idx, row :: rest =>
    let r := load_labels_from (idx + 1) rest
    let names := normalizeName row.name :: r.1
    match row.category with
    | 9 => (names, idx :: r.2.1, r.2.2.1, r.2.2.2)
    | 0 => (names, r.2.1, idx :: r.2.2.1, r.2.2.2)
    | 4 => (names, r.2.1, r.2.2.1, idx :: r.2.2.2)
    | _ => (names, r.2.1, r.2.2.1, r.2.2.2)

/-- load_labels (src/main.rs lines 34-61) on an already parsed row list. -/
def load_labels (rows : List TagRow) : List (List Char) × List Nat × List Nat × List Nat :=
  load_labels_from 0 rows

/-- One step of the Rust Iterator::max_by fold: when the comparison is Greater
the accumulator is kept, otherwise (Less or Equal) the new element replaces it,
so on ties the later element wins. -/
def maxByStep {α : Type} (acc : Option (α × ℚ)) (p : α × ℚ) : Option (α × ℚ) :=
  match acc with
  | none => some p
  | some q => if p.2 < q.2 then some q else some p

/-- Rust max_by over pairs compared by second component (used at src/main.rs
lines 66 and 155-158); none models the panic of unwrap on an empty iterator. -/
def max_by {α : Type} (l : List (α × ℚ)) : Option (α × ℚ) :=
  l.foldl maxByStep none

/-- Modelled from the spec words, for comparison only: maximum by second
component with ties broken by the FIRST occurrence, as sections 4.4 and 4.5 of
the spec describe. -/
def max_by_first {α : Type} (l : List (α × ℚ)) : Option (α × ℚ) :=
  l.foldl (fun acc p =>
    match acc with
    | none => some p
    | some q => if q.2 < p.2 then some p else some q) none

/-- Descending sort from mcut_threshold line 64 and predict line 179
(sort_by with the reversed comparator); insertionSort with this total relation
is stable, matching the stable Rust slice sort. -/
def sortDesc (l : List ℚ) : List ℚ :=
  l.insertionSort (fun a b => b ≤ a)

/-- Consecutive differences of a list, as windows(2) produces them
(src/main.rs line 65). -/
def diffsOf (l : List ℚ) : List ℚ :=
  (l.zip l.tail).map (fun w => w.1 - w.2)

/-- mcut_threshold (src/main.rs lines 63-68): sort descending, take the index
of the maximal consecutive difference via max_by over the enumerated
differences, return the midpoint of the two scores around that gap. none
models the unwrap panic on an empty difference list (fewer than 2 scores) and
the out-of-bounds panic of the final indexing. -/
def mcut_threshold (probs : List ℚ) : Option ℚ :=
  let sorted := sortDesc probs
  let diffs := diffsOf sorted
  match max_by diffs.enum with
  | none => none
  | some t =>
    match sorted.get? t.1, sorted.get? (t.1 + 1) with
    | some a, some b => some ((a + b) / 2)
    | _, _ => none

/-- Modelled from the spec words, for comparison only: the adaptive threshold
with the maximal difference located at its FIRST occurrence on ties, as step 3
of section 4.4 of the spec describes. -/
def mcut_threshold_first (probs : List ℚ) : Option ℚ :=
  let sorted := sortDesc probs
  let diffs := diffsOf sorted
  match max_by_first diffs.enum with
  | none => none
  | some t =>
    match sorted.get? t.1, sorted.get? (t.1 + 1) with
    | some a, some b => some ((a + b) / 2)
    | _, _ => none

/-- Loaded label catalog state of the Predictor (src/main.rs lines 70-77). -/
structure Catalog where
  tag_names : List (List Char)
  rating_i : List Nat
  general_i : List Nat
  character_i : List Nat

/-- Candidate list of one category (src/main.rs lines 155-161): map each
catalog position through the tag name table and the score vector. The name
lookup uses a default for an out-of-range position; the claims never depend on
the name payload there, only on positions and scores. -/
def gather (c : Catalog) (idxs : List Nat) (scores : Nat → ℚ) : List (List Char × ℚ) :=
  idxs.map (fun i => (c.tag_names.getD i [], scores i))

/-- Joining the surviving general names with a comma and a space
(src/main.rs line 180). -/
def joinComma (l : List (List Char)) : List Char :=
  List.intercalate [',', ' '] l

/-- Return value of predict (src/main.rs line 143): caption string, best
rating pair, surviving character pairs, surviving general pairs. -/
structure TaggingResult where
  caption : List Char
  rating : List Char × ℚ
  character : List (List Char × ℚ)
  general : List (List Char × ℚ)
deriving DecidableEq

/-- Post-inference part of predict (src/main.rs lines 155-182): best rating by
max_by, candidate lists for general and character, per-category thresholding
(fixed cutoff or mcut, with the character mcut threshold clamped to at least
0.15 = 3/20), stable descending sort of the surviving general list, caption
from the sorted general names. none models the panics of the two unwraps
(empty rating list, mcut on fewer than 2 scores). -/
def predict (c : Catalog) (scores : Nat → ℚ) (g_th : ℚ) (g_mcut : Bool)
    (c_th : ℚ) (c_mcut : Bool) : Option TaggingResult :=
  match max_by (gather c c.rating_i scores) with
  | none => none
  | some rating =>
    let general := gather c c.general_i scores
    let character := gather c c.character_i scores
    let generalKept : Option (List (List Char × ℚ)) :=
      if g_mcut then
        match mcut_threshold (general.map (fun p => p.2)) with
        | none => none
        | some th => some (general.filter (fun p => th < p.2))
      else some (general.filter (fun p => g_th < p.2))
    let characterKept : Option (List (List Char × ℚ)) :=
      if c_mcut then
        match mcut_threshold (character.map (fun p => p.2)) with
        | none => none
        | some th0 => some (character.filter (fun p => max th0 (3/20) < p.2))
      else some (character.filter (fun p => c_th < p.2))
    match generalKept, characterKept with
    | some gf, some cf =>
      let sortedG := gf.insertionSort (fun a b => b.2 ≤ a.2)
      some ⟨joinComma (sortedG.map (fun p => p.1)), rating, cf, sortedG⟩
    | _, _ => none

/-- Failure structure of prepare (src/main.rs lines 115-134) on an input image
of width w and height h: the only fallible step is canvas.copy_from at line
120, whose result is unwrapped; the image crate rejects the copy exactly when
the pasted image extended by its offset overflows the canvas. The offsets are
((m - w) / 2, (m - h) / 2) with m = max w h, in floor division. Every other
step (to_rgba8, resize, to_rgb8, the tensor fill) is total. The function
returns the canvas side on success; none models the unwrap panic. There is no
typed error channel anywhere in prepare. -/
def prepare (w h : Nat) : Option Nat :=
  let m := max w h
  if w + (m - w) / 2 ≤ m ∧ h + (m - h) / 2 ≤ m then some m else none

/-! Helper lemmas about the max_by fold. -/

theorem max_by_nil {α : Type} : max_by (α := α) [] = none := rfl

theorem max_by_append {α : Type} (l : List (α × ℚ)) (p : α × ℚ) :
    max_by (l ++ [p]) = maxByStep (max_by l) p := by
  simp [max_by, List.foldl_append]

/-- max_by returns the LAST element of maximal second component: its value is
an entry of the list, every entry is bounded by it, and every later entry is
strictly below it. -/
theorem max_by_spec {α : Type} (l : List (α × ℚ)) (hl : l ≠ []) :
    ∃ k, ∃ hk : k < l.length, max_by l = some (l.get ⟨k, hk⟩) ∧
      (∀ i (hi : i < l.length), (l.get ⟨i, hi⟩).2 ≤ (l.get ⟨k, hk⟩).2) ∧
      (∀ i (hi : i < l.length), k < i → (l.get ⟨i, hi⟩).2 < (l.get ⟨k, hk⟩).2) := by
  induction l using List.reverseRecOn with
  | nil => exact absurd rfl hl
  | append_singleton l p ih =>
    rcases eq_or_ne l [] with rfl | hne
    · refine ⟨0, by simp, by simp [max_by, maxByStep], ?_, ?_⟩
      · intro i hi
        have hi0 : i = 0 := by
          simp only [List.length_append, List.length_nil, List.length_singleton] at hi
          omega
        subst hi0
        exact le_refl _
      · intro i hi h0
        have : i = 0 := by
          simp only [List.length_append, List.length_nil, List.length_singleton] at hi
          omega
        omega
    · obtain ⟨k, hk, hmb, hmax, hlast⟩ := ih hne
      simp only [List.get_eq_getElem] at hmb hmax hlast
      rw [max_by_append, hmb]
      by_cases hcmp : p.2 < l[k].2
      · have hk2 : k < (l ++ [p]).length := by simp; omega
        refine ⟨k, hk2, ?_, ?_, ?_⟩
        · simp only [maxByStep, if_pos hcmp, List.get_eq_getElem,
            List.getElem_append_left hk]
        · intro i hi
          simp only [List.get_eq_getElem, List.getElem_append_left hk]
          simp only [List.length_append, List.length_singleton] at hi
          rcases Nat.lt_or_ge i l.length with hil | hil
          · rw [List.getElem_append_left hil]
            exact hmax i hil
          · have hieq : i = l.length := by omega
            rw [List.getElem_concat_length l p i hieq]
            exact le_of_lt hcmp
        · intro i hi hki
          simp only [List.get_eq_getElem, List.getElem_append_left hk]
          simp only [List.length_append, List.length_singleton] at hi
          rcases Nat.lt_or_ge i l.length with hil | hil
          · rw [List.getElem_append_left hil]
            exact hlast i hil hki
          · have hieq : i = l.length := by omega
            rw [List.getElem_concat_length l p i hieq]
            exact hcmp
      · have hk2 : l.length < (l ++ [p]).length := by simp
        refine ⟨l.length, hk2, ?_, ?_, ?_⟩
        · simp only [maxByStep, if_neg hcmp, List.get_eq_getElem,
            List.getElem_concat_length l p l.length rfl]
        · intro i hi
          simp only [List.get_eq_getElem, List.getElem_concat_length l p l.length rfl]
          simp only [List.length_append, List.length_singleton] at hi
          rcases Nat.lt_or_ge i l.length with hil | hil
          · rw [List.getElem_append_left hil]
            exact le_trans (hmax i hil) (le_of_not_lt hcmp)
          · have hieq : i = l.length := by omega
            rw [List.getElem_concat_length l p i hieq]
        · intro i hi hki
          simp only [List.length_append, List.length_singleton] at hi
          omega

/-- max_by fails exactly on the empty list. -/
theorem max_by_eq_none_iff {α : Type} (l : List (α × ℚ)) :
    max_by l = none ↔ l = [] := by
  constructor
  · intro h
    by_contra hne
    obtain ⟨k, hk, hmb, -, -⟩ := max_by_spec l hne
    rw [hmb] at h
    exact Option.noConfusion h
  · intro h; subst h; rfl

/-- max_by over an enumerated list returns the last index of maximal value. -/
theorem max_by_enum_spec (d : List ℚ) (hd : d ≠ []) :
    ∃ t, ∃ ht : t < d.length, max_by d.enum = some (t, d.get ⟨t, ht⟩) ∧
      (∀ i (hi : i < d.length), d.get ⟨i, hi⟩ ≤ d.get ⟨t, ht⟩) ∧
      (∀ i (hi : i < d.length), t < i → d.get ⟨i, hi⟩ < d.get ⟨t, ht⟩) := by
  have henil : d.enum ≠ [] := by
    intro h
    apply hd
    have := congrArg List.length h
    simpa [List.enum_length] using this
  obtain ⟨k, hk, hmb, hmax, hlast⟩ := max_by_spec d.enum henil
  simp only [List.get_eq_getElem] at hmb hmax hlast
  have hkd : k < d.length := by simpa [List.enum_length] using hk
  refine ⟨k, hkd, ?_, ?_, ?_⟩
  · rw [hmb]
    simp [List.getElem_enum]
  · intro i hi
    have hie : i < d.enum.length := by simpa [List.enum_length]
    have := hmax i hie
    simpa [List.getElem_enum] using this
  · intro i hi hki
    have hie : i < d.enum.length := by simpa [List.enum_length]
    have := hlast i hie hki
    simpa [List.getElem_enum] using this

theorem sortDesc_length (l : List ℚ) : (sortDesc l).length = l.length :=
  List.length_insertionSort _ l

theorem diffsOf_length (l : List ℚ) : (diffsOf l).length = l.length - 1 := by
  simp only [diffsOf, List.length_map, List.length_zip, List.length_tail]
  omega

theorem diffsOf_get (l : List ℚ) (i : Nat) (hi : i < (diffsOf l).length) :
    (diffsOf l).get ⟨i, hi⟩ = l.getD i 0 - l.getD (i + 1) 0 := by
  have hlen : i + 1 < l.length := by
    have := diffsOf_length l
    omega
  have hit : i < l.tail.length := by
    simp only [List.length_tail]
    omega
  simp only [diffsOf, List.get_eq_getElem, List.getElem_map, List.getElem_zip,
    List.getElem_tail]
  rw [List.getD_eq_getElem l 0 (by omega), List.getD_eq_getElem l 0 hlen]

/-- mcut_threshold on at least 2 scores: the returned value is the midpoint of
the two sorted scores around the last maximal consecutive difference. -/
theorem mcut_threshold_eq (probs : List ℚ) (h2 : 2 ≤ probs.length) :
    ∃ t, t + 1 < (sortDesc probs).length ∧
      mcut_threshold probs
        = some (((sortDesc probs).getD t 0 + (sortDesc probs).getD (t + 1) 0) / 2) ∧
      (∀ i, i < (diffsOf (sortDesc probs)).length →
        (diffsOf (sortDesc probs)).getD i 0 ≤ (diffsOf (sortDesc probs)).getD t 0) ∧
      (∀ i, i < (diffsOf (sortDesc probs)).length → t < i →
        (diffsOf (sortDesc probs)).getD i 0 < (diffsOf (sortDesc probs)).getD t 0) := by
  have hslen : (sortDesc probs).length = probs.length := sortDesc_length probs
  have hdlen : (diffsOf (sortDesc probs)).length = probs.length - 1 := by
    rw [diffsOf_length, hslen]
  have hdnil : diffsOf (sortDesc probs) ≠ [] := by
    intro h
    have := congrArg List.length h
    simp [hdlen] at this
    omega
  obtain ⟨t, ht, hmb, hmax, hlast⟩ := max_by_enum_spec (diffsOf (sortDesc probs)) hdnil
  have ht1 : t + 1 < (sortDesc probs).length := by omega
  refine ⟨t, ht1, ?_, ?_, ?_⟩
  · simp only [mcut_threshold]
    rw [hmb]
    dsimp only
    have hg1 : (sortDesc probs).get? t = some ((sortDesc probs).getD t 0) := by
      rw [List.get?_eq_getElem?, List.getElem?_eq_getElem (by omega),
        List.getD_eq_getElem (sortDesc probs) 0 (by omega)]
    have hg2 : (sortDesc probs).get? (t + 1) = some ((sortDesc probs).getD (t + 1) 0) := by
      rw [List.get?_eq_getElem?, List.getElem?_eq_getElem ht1,
        List.getD_eq_getElem (sortDesc probs) 0 ht1]
    rw [hg1, hg2]
  · intro i hi
    have := hmax i hi
    rw [List.getD_eq_getElem _ 0 hi, List.getD_eq_getElem _ 0 ht]
    simpa [List.get_eq_getElem] using this
  · intro i hi hti
    have := hlast i hi hti
    rw [List.getD_eq_getElem _ 0 hi, List.getD_eq_getElem _ 0 ht]
    simpa [List.get_eq_getElem] using this

/-- mcut_threshold fails exactly on score lists with fewer than 2 elements. -/
theorem mcut_threshold_eq_none_iff (probs : List ℚ) :
    mcut_threshold probs = none ↔ probs.length < 2 := by
  constructor
  · intro h
    by_contra hlt
    push_neg at hlt
    obtain ⟨t, ht, heq, -, -⟩ := mcut_threshold_eq probs hlt
    rw [heq] at h
    exact Option.noConfusion h
  · intro h
    have hdnil : diffsOf (sortDesc probs) = [] := by
      apply List.eq_nil_of_length_eq_zero
      rw [diffsOf_length, sortDesc_length]
      omega
    simp only [mcut_threshold]
    rw [hdnil]
    rfl

/-! Stability of the descending pair sort used at src/main.rs line 179. -/

/-- Filtering one score class through an orderedInsert step: the inserted pair
lands in front of its own score class and no other class is disturbed. -/
theorem filter_orderedInsert_key (q : ℚ) (a : List Char × ℚ) (l : List (List Char × ℚ)) :
    List.filter (fun p => p.2 = q) (l.orderedInsert (fun x y => y.2 ≤ x.2) a)
      = if a.2 = q then a :: List.filter (fun p => p.2 = q) l
        else List.filter (fun p => p.2 = q) l := by
  induction l with
  | nil =>
    simp only [List.orderedInsert, List.filter]
    split_ifs with h <;> simp [h]
  | cons b bs ih =>
    by_cases hr : b.2 ≤ a.2
    · simp only [List.orderedInsert, if_pos hr, List.filter_cons]
      split_ifs with h1 h2 h2 <;> simp_all
    · simp only [List.orderedInsert, if_neg hr, List.filter_cons, ih]
      by_cases ha : a.2 = q
      · have hb : ¬ b.2 = q := by
          intro hb
          exact hr (by rw [hb, ha])
        simp [ha, hb]
      · simp only [if_neg ha]

/-- Stability of the insertionSort call modelling the stable Rust sort: within
one score class the order of the input list is preserved. -/
theorem filter_insertionSort_key (q : ℚ) (l : List (List Char × ℚ)) :
    List.filter (fun p => p.2 = q) (l.insertionSort (fun x y => y.2 ≤ x.2))
      = List.filter (fun p => p.2 = q) l := by
  induction l with
  | nil => rfl
  | cons a l ih =>
    simp only [List.insertionSort, filter_orderedInsert_key, ih, List.filter_cons]
    split_ifs <;> simp_all

/-- Inversion of predict: a successful call decomposes into the best rating
pair, the per-category filtered candidate lists (with the policy the flags
request) and the stably sorted general output. -/
theorem predict_inv (c : Catalog) (scores : Nat → ℚ) (g_th : ℚ) (g_mcut : Bool)
    (c_th : ℚ) (c_mcut : Bool) (r : TaggingResult)
    (h : predict c scores g_th g_mcut c_th c_mcut = some r) :
    ∃ rating gf cf,
      max_by (gather c c.rating_i scores) = some rating ∧
      (if g_mcut then
          ∃ th, mcut_threshold ((gather c c.general_i scores).map (fun p => p.2)) = some th ∧
            gf = (gather c c.general_i scores).filter (fun p => th < p.2)
        else gf = (gather c c.general_i scores).filter (fun p => g_th < p.2)) ∧
      (if c_mcut then
          ∃ th0,
            mcut_threshold ((gather c c.character_i scores).map (fun p => p.2)) = some th0 ∧
            cf = (gather c c.character_i scores).filter (fun p => max th0 (3/20) < p.2)
        else cf = (gather c c.character_i scores).filter (fun p => c_th < p.2)) ∧
      r = ⟨joinComma ((gf.insertionSort (fun a b => b.2 ≤ a.2)).map (fun p => p.1)),
            rating, cf, gf.insertionSort (fun a b => b.2 ≤ a.2)⟩ := by
  simp only [predict] at h
  split at h
  · exact Option.noConfusion h
  case _ rating hmb =>
    split at h
    case _ gf cf hgf hcf =>
      refine ⟨rating, gf, cf, hmb, ?_, ?_, ?_⟩
      · cases g_mcut with
        | false =>
          simp only [Bool.false_eq_true, if_false] at hgf ⊢
          exact (Option.some.inj hgf).symm
        | true =>
          simp only [if_true] at hgf ⊢
          split at hgf
          · exact Option.noConfusion hgf
          case _ th hth =>
            exact ⟨th, hth, (Option.some.inj hgf).symm⟩
      · cases c_mcut with
        | false =>
          simp only [Bool.false_eq_true, if_false] at hcf ⊢
          exact (Option.some.inj hcf).symm
        | true =>
          simp only [if_true] at hcf ⊢
          split at hcf
          · exact Option.noConfusion hcf
          case _ th0 hth0 =>
            exact ⟨th0, hth0, (Option.some.inj hcf).symm⟩
      · exact (Option.some.inj h).symm
    case _ hne =>
      exact Option.noConfusion h

/-! Characterization of load_labels. -/

/-- Closed form of the load_labels loop from an arbitrary starting index: the
names are the normalized row names in order, and each index list collects the
positions of the rows carrying its category code. -/
theorem load_labels_from_eq (idx : Nat) (rows : List TagRow) :
    load_labels_from idx rows
      = (rows.map (fun row => normalizeName row.name),
         ((rows.enumFrom idx).filter (fun p => p.2.category = 9)).map (fun p => p.1),
         ((rows.enumFrom idx).filter (fun p => p.2.category = 0)).map (fun p => p.1),
         ((rows.enumFrom idx).filter (fun p => p.2.category = 4)).map (fun p => p.1)) := by
  induction rows generalizing idx with
  | nil => rfl
  | cons row rest ih =>
    simp only [load_labels_from, ih, List.enumFrom_cons, List.filter_cons]
    split
    case _ heq => simp [heq]
    case _ heq => simp [heq]
    case _ heq => simp [heq]
    case _ h9 h0 h4 => simp [if_neg h9, if_neg h0, if_neg h4]

theorem load_labels_eq (rows : List TagRow) :
    load_labels rows
      = (rows.map (fun row => normalizeName row.name),
         (rows.enum.filter (fun p => p.2.category = 9)).map (fun p => p.1),
         (rows.enum.filter (fun p => p.2.category = 0)).map (fun p => p.1),
         (rows.enum.filter (fun p => p.2.category = 4)).map (fun p => p.1)) :=
  load_labels_from_eq 0 rows

/-- Membership in one of the index lists pins down the category of the row at
that position. -/
theorem mem_load_labels_positions (rows : List TagRow) (k i : Nat)
    (h : i ∈ ((rows.enum.filter (fun p => p.2.category = k)).map (fun p => p.1))) :
    ∃ hi : i < rows.length, (rows.get ⟨i, hi⟩).category = k := by
  obtain ⟨p, hpmem, hpfst⟩ := List.mem_map.mp h
  obtain ⟨hpe, hpcat⟩ := List.mem_filter.mp hpmem
  obtain ⟨-, hlt, hrow⟩ := List.mem_enumFrom hpe
  subst hpfst
  have hi : p.1 < rows.length := by simpa using hlt
  refine ⟨hi, ?_⟩
  rw [List.get_eq_getElem]
  have hre : p.2 = rows[p.1] := by simpa using hrow
  rw [← hre]
  exact of_decide_eq_true hpcat

/-! Claim theorems. -/

/-- C8: name normalization is idempotent: whether or not the raw name consists
entirely of characters from the protected set, applying the normalization of
load_labels twice yields the same result as applying it once. -/
theorem normalizeName_idempotent (s : List Char) :
    normalizeName (normalizeName s) = normalizeName s := by
  have hall : ∀ t : List Char, t.all (fun c => kaomojiChars.contains c) = true →
      normalizeName t = t := by
    intro t ht
    unfold normalizeName
    rw [if_pos ht]
  have hnot : ∀ t : List Char, ¬ t.all (fun c => kaomojiChars.contains c) = true →
      normalizeName t = t.map (fun c => if c = '_' then ' ' else c) := by
    intro t ht
    unfold normalizeName
    rw [if_neg ht]
  by_cases h : s.all (fun c => kaomojiChars.contains c) = true
  · rw [hall s h, hall s h]
  · rw [hnot s h]
    by_cases h2 : (s.map (fun c => if c = '_' then ' ' else c)).all
        (fun c => kaomojiChars.contains c) = true
    · exact hall _ h2
    · rw [hnot _ h2, List.map_map]
      apply List.map_congr_left
      intro a _
      by_cases hc : a = '_'
      · subst hc
        simp
      · simp [Function.comp, hc]

/-- C6 (evaluation of the code): prepare has no error path at all. For every
input width and height, including a zero width or height, the letterbox copy
fits inside the square canvas of side max w h, so the modelled prepare
returns a canvas (some) instead of any error; the claimed typed
InvalidImage/ZeroDimension failure does not exist in the code. -/
theorem prepare_never_fails (w h : Nat) : prepare w h = some (max w h) := by
  simp only [prepare]
  rw [if_pos]
  constructor <;> omega

/-- Property bundle for C7: the names list of load_labels is the normalized
row names in row order (so every row keeps its position), the three index
lists are exactly the positions of the rows with category code 9, 0 and 4 in
original order, the lists are pairwise disjoint, and membership in a list
forces the corresponding category code, so a row with any other code appears
in none of them. -/
def CatalogPartitionOk (rows : List TagRow) : Prop :=
  (load_labels rows).1 = rows.map (fun row => normalizeName row.name) ∧
  (load_labels rows).2.1
    = (rows.enum.filter (fun p => p.2.category = 9)).map (fun p => p.1) ∧
  (load_labels rows).2.2.1
    = (rows.enum.filter (fun p => p.2.category = 0)).map (fun p => p.1) ∧
  (load_labels rows).2.2.2
    = (rows.enum.filter (fun p => p.2.category = 4)).map (fun p => p.1) ∧
  (load_labels rows).2.1.Disjoint (load_labels rows).2.2.1 ∧
  (load_labels rows).2.1.Disjoint (load_labels rows).2.2.2 ∧
  (load_labels rows).2.2.1.Disjoint (load_labels rows).2.2.2 ∧
  (∀ i, i ∈ (load_labels rows).2.1 →
    ∃ hi : i < rows.length, (rows.get ⟨i, hi⟩).category = 9) ∧
  (∀ i, i ∈ (load_labels rows).2.2.1 →
    ∃ hi : i < rows.length, (rows.get ⟨i, hi⟩).category = 0) ∧
  (∀ i, i ∈ (load_labels rows).2.2.2 →
    ∃ hi : i < rows.length, (rows.get ⟨i, hi⟩).category = 4)

/-- C7: every catalog produced by load_labels satisfies the partition
invariants of CatalogPartitionOk. -/
theorem load_labels_invariants (rows : List TagRow) : CatalogPartitionOk rows := by
  have hmem9 : ∀ i, i ∈ (load_labels rows).2.1 →
      ∃ hi : i < rows.length, (rows.get ⟨i, hi⟩).category = 9 := by
    intro i hi
    apply mem_load_labels_positions
    rw [load_labels_eq] at hi
    exact hi
  have hmem0 : ∀ i, i ∈ (load_labels rows).2.2.1 →
      ∃ hi : i < rows.length, (rows.get ⟨i, hi⟩).category = 0 := by
    intro i hi
    apply mem_load_labels_positions
    rw [load_labels_eq] at hi
    exact hi
  have hmem4 : ∀ i, i ∈ (load_labels rows).2.2.2 →
      ∃ hi : i < rows.length, (rows.get ⟨i, hi⟩).category = 4 := by
    intro i hi
    apply mem_load_labels_positions
    rw [load_labels_eq] at hi
    exact hi
  refine ⟨?_, ?_, ?_, ?_, ?_, ?_, ?_, hmem9, hmem0, hmem4⟩
  · rw [load_labels_eq]
  · rw [load_labels_eq]
  · rw [load_labels_eq]
  · rw [load_labels_eq]
  · intro i h1 h2
    obtain ⟨hi1, hc1⟩ := hmem9 i h1
    obtain ⟨hi2, hc2⟩ := hmem0 i h2
    rw [hc1] at hc2
    exact absurd hc2 (by norm_num)
  · intro i h1 h2
    obtain ⟨hi1, hc1⟩ := hmem9 i h1
    obtain ⟨hi2, hc2⟩ := hmem4 i h2
    rw [hc1] at hc2
    exact absurd hc2 (by norm_num)
  · intro i h1 h2
    obtain ⟨hi1, hc1⟩ := hmem0 i h1
    obtain ⟨hi2, hc2⟩ := hmem4 i h2
    rw [hc1] at hc2
    exact absurd hc2 (by norm_num)

/-- Concrete catalog rows used to witness the partition invariants: a general
row, a rating row, a character row and a row with an unrecognized code 2. -/
def rowsExample : List TagRow :=
  [⟨['1', 'g', 'i', 'r', 'l'], 0⟩, ⟨['r', 'a', 't', 'i', 'n', 'g'], 9⟩,
   ⟨['o', 'c', '_', 'h', 'e', 'r', 'o'], 4⟩, ⟨['x'], 2⟩]

/-- Witness for C7 at a concrete four-row catalog. -/
theorem load_labels_invariants_witness : CatalogPartitionOk rowsExample :=
  load_labels_invariants rowsExample

/-- C10: the adaptive threshold fails exactly on categories with fewer than 2
scores (the max over the empty difference list is unwrapped), and predict with
the adaptive flag set for a category with fewer than 2 candidates reaches that
failing branch and produces no result, whichever policy the other category
uses. -/
theorem mcut_degenerate (probs : List ℚ) (c : Catalog) (scores : Nat → ℚ)
    (g_th c_th : ℚ) (g_mcut c_mcut : Bool)
    (hg : c.general_i.length < 2) (hc : c.character_i.length < 2) :
    (mcut_threshold probs = none ↔ probs.length < 2) ∧
    predict c scores g_th true c_th c_mcut = none ∧
    predict c scores g_th g_mcut c_th true = none := by
  have hgnone : mcut_threshold ((gather c c.general_i scores).map (fun p => p.2)) = none := by
    rw [mcut_threshold_eq_none_iff]
    simpa [gather] using hg
  have hcnone : mcut_threshold ((gather c c.character_i scores).map (fun p => p.2)) = none := by
    rw [mcut_threshold_eq_none_iff]
    simpa [gather] using hc
  refine ⟨mcut_threshold_eq_none_iff probs, ?_, ?_⟩
  · simp only [predict, hgnone]
    split
    · rfl
    · split
      case _ gf cf hgf hcf =>
        simp at hgf
      case _ => rfl
  · simp only [predict, hcnone]
    split
    · rfl
    · split
      case _ gf cf hgf hcf =>
        simp at hcf
      case _ => rfl

/-- Concrete catalog used in several witnesses: one rating row at position 0,
general rows at positions 1 and 2, character rows at positions 3 and 4. -/
def catalogExample : Catalog :=
  ⟨[['r'], ['a'], ['b'], ['x'], ['y']], [0], [1, 2], [3, 4]⟩

/-- Concrete score vector for catalogExample. -/
def scoresExample : Nat → ℚ :=
  fun i => [1/2, 9/10, 3/10, 4/5, 1/10].getD i 0

/-- Degenerate catalog for the C10 witness: every category has fewer than two
candidates. -/
def catalogSmall : Catalog :=
  ⟨[['r'], ['x']], [0], [], [1]⟩

/-- Witness for C10: a singleton score list makes mcut_threshold fail, and
predict with an adaptive flag on a category with fewer than 2 candidates
returns none. -/
theorem mcut_degenerate_witness :
    (mcut_threshold [1/2] = none ↔ ([(1/2 : ℚ)]).length < 2) ∧
    predict catalogSmall scoresExample (7/20) true (17/20) false = none ∧
    predict catalogSmall scoresExample (7/20) false (17/20) true = none :=
  mcut_degenerate [1/2] catalogSmall scoresExample (7/20) (17/20) false false
    (by simp [catalogSmall]) (by simp [catalogSmall])

/-- C5: the character list predict returns is never resorted by score: for
every thresholding policy combination it is a sublist of the catalog-order
character candidate list, so surviving character pairs keep their original
catalog-index order regardless of score magnitude. -/
theorem character_order_preserved (c : Catalog) (scores : Nat → ℚ) (g_th : ℚ)
    (g_mcut : Bool) (c_th : ℚ) (c_mcut : Bool) (r : TaggingResult)
    (h : predict c scores g_th g_mcut c_th c_mcut = some r) :
    r.character.Sublist (gather c c.character_i scores) := by
  obtain ⟨rating, gf, cf, hmb, hgf, hcf, hr⟩ :=
    predict_inv c scores g_th g_mcut c_th c_mcut r h
  have hrc : r.character = cf := by rw [hr]
  rw [hrc]
  cases c_mcut with
  | false =>
    simp only [Bool.false_eq_true, if_false] at hcf
    rw [hcf]
    exact List.filter_sublist _
  | true =>
    simp only [if_true] at hcf
    obtain ⟨th0, hth0, hcfe⟩ := hcf
    rw [hcfe]
    exact List.filter_sublist _

/-- Expected result of predict on catalogExample and scoresExample with the
fixed policies and default thresholds 0.35 and 0.85. -/
def resultFixedExample : TaggingResult :=
  ⟨['a'], (['r'], 1/2), [], [(['a'], 9/10)]⟩

/-- Witness for C5 at the concrete catalog: the fixed-policy call succeeds and
its character list is a sublist of the catalog-order candidates. -/
theorem character_order_preserved_witness :
    predict catalogExample scoresExample (7/20) false (17/20) false
        = some resultFixedExample ∧
    resultFixedExample.character.Sublist
      (gather catalogExample catalogExample.character_i scoresExample) :=
  ⟨by norm_num [predict, gather, catalogExample, scoresExample, max_by, maxByStep,
      joinComma, resultFixedExample, List.filter, List.insertionSort,
      List.orderedInsert, List.intercalate],
   character_order_preserved catalogExample scoresExample (7/20) false (17/20) false
      resultFixedExample
      (by norm_num [predict, gather, catalogExample, scoresExample, max_by, maxByStep,
        joinComma, resultFixedExample, List.filter, List.insertionSort,
        List.orderedInsert, List.intercalate])⟩

/-- C3: whenever predict runs the adaptive policy on the character category,
the threshold actually applied is the maximum of the computed gap midpoint and
the floor 0.15 = 3/20: the surviving list is the filter at that clamped value,
which is never below 3/20. -/
theorem character_threshold_floor (c : Catalog) (scores : Nat → ℚ) (g_th : ℚ)
    (g_mcut : Bool) (c_th : ℚ) (r : TaggingResult)
    (h : predict c scores g_th g_mcut c_th true = some r) :
    ∃ th0,
      mcut_threshold ((gather c c.character_i scores).map (fun p => p.2)) = some th0 ∧
      r.character = (gather c c.character_i scores).filter (fun p => max th0 (3/20) < p.2) ∧
      (3/20 : ℚ) ≤ max th0 (3/20) := by
  obtain ⟨rating, gf, cf, hmb, hgf, hcf, hr⟩ :=
    predict_inv c scores g_th g_mcut c_th true r h
  simp only [if_true] at hcf
  obtain ⟨th0, hth0, hcfe⟩ := hcf
  refine ⟨th0, hth0, ?_, le_max_right _ _⟩
  have hrc : r.character = cf := by rw [hr]
  rw [hrc, hcfe]

/-- Expected result of predict on catalogExample and scoresExample with the
adaptive policy on the character category. -/
def resultMcutExample : TaggingResult :=
  ⟨['a'], (['r'], 1/2), [(['x'], 4/5)], [(['a'], 9/10)]⟩

/-- Witness for C3 at the concrete catalog: the adaptive character call
succeeds, its gap midpoint is 9/20, and the applied threshold is
max(9/20, 3/20). -/
theorem character_threshold_floor_witness :
    predict catalogExample scoresExample (7/20) false (17/20) true
        = some resultMcutExample ∧
    (∃ th0,
      mcut_threshold
          ((gather catalogExample catalogExample.character_i scoresExample).map
            (fun p => p.2)) = some th0 ∧
      resultMcutExample.character
        = (gather catalogExample catalogExample.character_i scoresExample).filter
            (fun p => max th0 (3/20) < p.2) ∧
      (3/20 : ℚ) ≤ max th0 (3/20)) :=
  ⟨by norm_num [predict, gather, catalogExample, scoresExample, max_by, maxByStep,
      joinComma, resultMcutExample, mcut_threshold, sortDesc, diffsOf,
      List.insertionSort, List.orderedInsert, List.enum, List.enumFrom,
      List.filter, List.intercalate],
   character_threshold_floor catalogExample scoresExample (7/20) false (17/20)
      resultMcutExample
      (by norm_num [predict, gather, catalogExample, scoresExample, max_by, maxByStep,
        joinComma, resultMcutExample, mcut_threshold, sortDesc, diffsOf,
        List.insertionSort, List.orderedInsert, List.enum, List.enumFrom,
        List.filter, List.intercalate])⟩

/-- Property bundle for C4 at one successful predict call: the general output
list is sorted descending by score, is a permutation of the surviving
candidates (the filter of the catalog-order candidate list at the applied
threshold, which under the fixed policy is the caller-supplied cutoff), equal
scores keep their catalog order (filtering any single score class yields the
same list as filtering the unsorted survivors), and the caption is the sorted
surviving names joined by a comma and a space, empty when nothing survives. -/
def GeneralOutputSpec (c : Catalog) (scores : Nat → ℚ) (g_th : ℚ) (g_mcut : Bool)
    (r : TaggingResult) : Prop :=
  ∃ th, (g_mcut = false → th = g_th) ∧
    r.general.Sorted (fun a b => b.2 ≤ a.2) ∧
    r.general.Perm ((gather c c.general_i scores).filter (fun p => th < p.2)) ∧
    (∀ q : ℚ, r.general.filter (fun p => p.2 = q)
      = ((gather c c.general_i scores).filter (fun p => th < p.2)).filter
          (fun p => p.2 = q)) ∧
    r.caption = joinComma (r.general.map (fun p => p.1)) ∧
    (r.general = [] → r.caption = [])

/-- C4: the general list returned by predict is the stably sorted, descending
list of surviving general candidates and the caption joins its names in that
order. -/
theorem general_output_sorted (c : Catalog) (scores : Nat → ℚ) (g_th : ℚ)
    (g_mcut : Bool) (c_th : ℚ) (c_mcut : Bool) (r : TaggingResult)
    (h : predict c scores g_th g_mcut c_th c_mcut = some r) :
    GeneralOutputSpec c scores g_th g_mcut r := by
  obtain ⟨rating, gf, cf, hmb, hgf, hcf, hr⟩ :=
    predict_inv c scores g_th g_mcut c_th c_mcut r h
  letI : IsTotal (List Char × ℚ) (fun a b => b.2 ≤ a.2) :=
    ⟨fun a b => le_total b.2 a.2⟩
  letI : IsTrans (List Char × ℚ) (fun a b => b.2 ≤ a.2) :=
    ⟨fun a b c2 hab hbc => le_trans hbc hab⟩
  have hsorted : (gf.insertionSort (fun a b => b.2 ≤ a.2)).Sorted
      (fun a b => b.2 ≤ a.2) := List.sorted_insertionSort _ gf
  have hperm : (gf.insertionSort (fun a b => b.2 ≤ a.2)).Perm gf :=
    List.perm_insertionSort _ gf
  have hgen : r.general = gf.insertionSort (fun a b => b.2 ≤ a.2) := by rw [hr]
  have hcap : r.caption
      = joinComma ((gf.insertionSort (fun a b => b.2 ≤ a.2)).map (fun p => p.1)) := by
    rw [hr]
  cases g_mcut with
  | false =>
    simp only [Bool.false_eq_true, if_false] at hgf
    refine ⟨g_th, fun _ => rfl, ?_, ?_, ?_, ?_, ?_⟩
    · rw [hgen]; exact hsorted
    · rw [hgen, ← hgf]; exact hperm
    · intro q
      rw [hgen, ← hgf]
      exact filter_insertionSort_key q gf
    · rw [hcap, hgen]
    · intro hnil
      rw [hcap, hgen.symm.trans hnil]
      rfl
  | true =>
    simp only [if_true] at hgf
    obtain ⟨th, hth, hgfe⟩ := hgf
    refine ⟨th, fun hgm => by exact absurd hgm (by simp), ?_, ?_, ?_, ?_, ?_⟩
    · rw [hgen]; exact hsorted
    · rw [hgen, ← hgfe]; exact hperm
    · intro q
      rw [hgen, ← hgfe]
      exact filter_insertionSort_key q gf
    · rw [hcap, hgen]
    · intro hnil
      rw [hcap, hgen.symm.trans hnil]
      rfl

/-- Witness for C4: the fixed-policy call on the concrete catalog succeeds and
its general output satisfies the bundle. -/
theorem general_output_sorted_witness :
    predict catalogExample scoresExample (7/20) false (17/20) false
        = some resultFixedExample ∧
    GeneralOutputSpec catalogExample scoresExample (7/20) false resultFixedExample :=
  ⟨by norm_num [predict, gather, catalogExample, scoresExample, max_by, maxByStep,
      joinComma, resultFixedExample, List.filter, List.insertionSort,
      List.orderedInsert, List.intercalate],
   general_output_sorted catalogExample scoresExample (7/20) false (17/20) false
      resultFixedExample
      (by norm_num [predict, gather, catalogExample, scoresExample, max_by, maxByStep,
        joinComma, resultFixedExample, List.filter, List.insertionSort,
        List.orderedInsert, List.intercalate])⟩

/-- Property bundle for C2 (amended: ties broken by the LAST occurrence in
catalog order): the returned rating is an entry of the rating candidate list,
its score is greater than or equal to every rating-category score, and every
later entry scores strictly below it. -/
def RatingChoiceSpec (c : Catalog) (scores : Nat → ℚ) (r : TaggingResult) : Prop :=
  ∃ k, ∃ hk : k < (gather c c.rating_i scores).length,
    r.rating = (gather c c.rating_i scores).get ⟨k, hk⟩ ∧
    (∀ i (hi : i < (gather c c.rating_i scores).length),
      ((gather c c.rating_i scores).get ⟨i, hi⟩).2 ≤ r.rating.2) ∧
    (∀ i (hi : i < (gather c c.rating_i scores).length), k < i →
      ((gather c c.rating_i scores).get ⟨i, hi⟩).2 < r.rating.2)

/-- C2 (amended): every successful predict call returns as rating the maximal
entry of the rating candidate list, ties broken by the last occurrence, so its
score bounds every rating-category score. -/
theorem rating_is_max (c : Catalog) (scores : Nat → ℚ) (g_th : ℚ)
    (g_mcut : Bool) (c_th : ℚ) (c_mcut : Bool) (r : TaggingResult)
    (h : predict c scores g_th g_mcut c_th c_mcut = some r) :
    RatingChoiceSpec c scores r := by
  obtain ⟨rating, gf, cf, hmb, hgf, hcf, hr⟩ :=
    predict_inv c scores g_th g_mcut c_th c_mcut r h
  have hne : gather c c.rating_i scores ≠ [] := by
    intro hnil
    rw [hnil] at hmb
    exact Option.noConfusion hmb
  obtain ⟨k, hk, hmb2, hmax, hlast⟩ := max_by_spec (gather c c.rating_i scores) hne
  rw [hmb] at hmb2
  have hrr : r.rating = rating := by rw [hr]
  have hre : rating = (gather c c.rating_i scores).get ⟨k, hk⟩ := Option.some.inj hmb2
  refine ⟨k, hk, by rw [hrr, hre], ?_, ?_⟩
  · intro i hi
    rw [hrr, hre]
    exact hmax i hi
  · intro i hi hki
    rw [hrr, hre]
    exact hlast i hi hki

/-- Witness for C2: on the concrete catalog the fixed-policy call succeeds and
its rating satisfies the bundle. -/
theorem rating_is_max_witness :
    predict catalogExample scoresExample (7/20) false (17/20) false
        = some resultFixedExample ∧
    RatingChoiceSpec catalogExample scoresExample resultFixedExample :=
  ⟨by norm_num [predict, gather, catalogExample, scoresExample, max_by, maxByStep,
      joinComma, resultFixedExample, List.filter, List.insertionSort,
      List.orderedInsert, List.intercalate],
   rating_is_max catalogExample scoresExample (7/20) false (17/20) false
      resultFixedExample
      (by norm_num [predict, gather, catalogExample, scoresExample, max_by, maxByStep,
        joinComma, resultFixedExample, List.filter, List.insertionSort,
        List.orderedInsert, List.intercalate])⟩

/-- Catalog with two rating rows, used to exhibit the tie behavior of the
rating selection. -/
def catalogTie : Catalog :=
  ⟨[['a'], ['b']], [0, 1], [], []⟩

/-- Scores giving both rating rows of catalogTie the same score 1/2. -/
def scoresTie : Nat → ℚ := fun _ => 1/2

/-- Counterexample for C2 as stated: with two rating rows tied at score 1/2,
the code (Rust max_by) returns the LAST one, named b, while the selection the
spec describes (first occurrence on ties, max_by_first) returns the one named
a; the two disagree. -/
theorem rating_first_tie_cex :
    predict catalogTie scoresTie (7/20) false (17/20) false
        = some ⟨[], (['b'], 1/2), [], []⟩ ∧
    max_by_first (gather catalogTie catalogTie.rating_i scoresTie)
        = some (['a'], 1/2) ∧
    ((['b'], (1/2 : ℚ)) : List Char × ℚ) ≠ (['a'], (1/2 : ℚ)) := by
  refine ⟨?_, ?_, by simp⟩
  · norm_num [predict, gather, catalogTie, scoresTie, max_by, maxByStep,
      joinComma, List.filter, List.insertionSort, List.orderedInsert,
      List.intercalate]
  · norm_num [max_by_first, gather, catalogTie, scoresTie]

/-- Property bundle for C1 (amended: ties in the maximal difference are broken
by the LAST occurrence): the adaptive policy sorts the scores descending (a
permutation of the input), the difference list holds the consecutive
differences of the sorted scores, the returned threshold is the midpoint of
the two sorted scores around a maximal difference whose index is the last
maximal one, and a successful general-category adaptive predict call retains
exactly the candidate pairs with score strictly above that threshold. -/
def McutPolicySpec (probs : List ℚ) : Prop :=
  (sortDesc probs).Sorted (fun a b => b ≤ a) ∧
  (sortDesc probs).Perm probs ∧
  (∀ i, i + 1 < (sortDesc probs).length →
    (diffsOf (sortDesc probs)).getD i 0
      = (sortDesc probs).getD i 0 - (sortDesc probs).getD (i + 1) 0) ∧
  (∃ t, t + 1 < (sortDesc probs).length ∧
    mcut_threshold probs
      = some (((sortDesc probs).getD t 0 + (sortDesc probs).getD (t + 1) 0) / 2) ∧
    (∀ i, i < (diffsOf (sortDesc probs)).length →
      (diffsOf (sortDesc probs)).getD i 0 ≤ (diffsOf (sortDesc probs)).getD t 0) ∧
    (∀ i, i < (diffsOf (sortDesc probs)).length → t < i →
      (diffsOf (sortDesc probs)).getD i 0 < (diffsOf (sortDesc probs)).getD t 0)) ∧
  (∀ (c : Catalog) (scores : Nat → ℚ) (g_th c_th : ℚ) (c_mcut : Bool)
      (r : TaggingResult) (th : ℚ),
    (gather c c.general_i scores).map (fun p => p.2) = probs →
    predict c scores g_th true c_th c_mcut = some r →
    mcut_threshold probs = some th →
    r.general.Perm ((gather c c.general_i scores).filter (fun p => th < p.2)))

/-- C1 (amended): on at least 2 scores the adaptive policy satisfies the
bundle above, and on the concrete list [0.9, 0.6, 0.5, 0.1] the differences
are [0.3, 0.1, 0.4], the threshold is (0.5 + 0.1)/2 = 0.3 and the survivors
are the scores 0.9, 0.6 and 0.5. -/
theorem mcut_policy (probs : List ℚ) (h2 : 2 ≤ probs.length) :
    McutPolicySpec probs ∧
    mcut_threshold [9/10, 6/10, 1/2, 1/10] = some (3/10) ∧
    diffsOf (sortDesc [9/10, 6/10, 1/2, 1/10]) = [3/10, 1/10, 2/5] ∧
    ([9/10, 6/10, 1/2, 1/10] : List ℚ).filter (fun x => 3/10 < x)
      = [9/10, 6/10, 1/2] := by
  refine ⟨⟨?_, ?_, ?_, ?_, ?_⟩, ?_, ?_, ?_⟩
  · letI : IsTotal ℚ (fun a b => b ≤ a) := ⟨fun a b => le_total b a⟩
    letI : IsTrans ℚ (fun a b => b ≤ a) := ⟨fun a b c2 hab hbc => le_trans hbc hab⟩
    exact List.sorted_insertionSort _ probs
  · exact List.perm_insertionSort _ probs
  · intro i hi
    have hid : i < (diffsOf (sortDesc probs)).length := by
      rw [diffsOf_length]
      omega
    rw [List.getD_eq_getElem _ 0 hid]
    have := diffsOf_get (sortDesc probs) i hid
    rw [List.get_eq_getElem] at this
    exact this
  · obtain ⟨t, ht, heq, hmax, hlast⟩ := mcut_threshold_eq probs h2
    exact ⟨t, ht, heq, hmax, hlast⟩
  · intro c scores g_th c_th c_mcut r th hpr hp hth
    obtain ⟨rating, gf, cf, hmb, hgf, hcf, hr⟩ :=
      predict_inv c scores g_th true c_th c_mcut r hp
    simp only [if_true] at hgf
    obtain ⟨th2, hth2, hgfe⟩ := hgf
    rw [hpr] at hth2
    rw [hth] at hth2
    have hthe : th = th2 := Option.some.inj hth2
    have hgene : r.general = gf.insertionSort (fun a b => b.2 ≤ a.2) := by rw [hr]
    rw [hgene, hgfe, hthe]
    exact List.perm_insertionSort _ _
  · norm_num [mcut_threshold, sortDesc, diffsOf, max_by, maxByStep,
      List.insertionSort, List.orderedInsert, List.enum, List.enumFrom]
  · norm_num [sortDesc, diffsOf, List.insertionSort, List.orderedInsert]
  · norm_num [List.filter]

/-- Witness for C1 at the score list of the concrete example from the spec. -/
theorem mcut_policy_witness :
    2 ≤ ([9/10, 6/10, 1/2, 1/10] : List ℚ).length ∧
    (McutPolicySpec [9/10, 6/10, 1/2, 1/10] ∧
      mcut_threshold [9/10, 6/10, 1/2, 1/10] = some (3/10) ∧
      diffsOf (sortDesc [9/10, 6/10, 1/2, 1/10]) = [3/10, 1/10, 2/5] ∧
      ([9/10, 6/10, 1/2, 1/10] : List ℚ).filter (fun x => 3/10 < x)
        = [9/10, 6/10, 1/2]) :=
  ⟨by norm_num, mcut_policy [9/10, 6/10, 1/2, 1/10] (by norm_num)⟩

/-- Counterexample for C1 as stated: on the scores [0.9, 0.6, 0.3, 0.2] the
consecutive differences are [0.3, 0.3, 0.1], tied at indices 0 and 1; the
code places the cut at the LAST maximal gap and returns (0.6 + 0.3)/2 = 0.45,
while the first-occurrence rule the claim states (mcut_threshold_first)
returns (0.9 + 0.6)/2 = 0.75; the two disagree. -/
theorem mcut_first_tie_cex :
    mcut_threshold [9/10, 6/10, 3/10, 2/10] = some (9/20) ∧
    mcut_threshold_first [9/10, 6/10, 3/10, 2/10] = some (3/4) ∧
    (9/20 : ℚ) ≠ 3/4 := by
  refine ⟨?_, ?_, by norm_num⟩
  · norm_num [mcut_threshold, sortDesc, diffsOf, max_by, maxByStep,
      List.insertionSort, List.orderedInsert, List.enum, List.enumFrom]
  · norm_num [mcut_threshold_first, sortDesc, diffsOf, max_by_first,
      List.insertionSort, List.orderedInsert, List.enum, List.enumFrom]

end WD14
